import Mathlib

/-
Shallow embedding of the rs-flow dataflow engine (repository Adlizm/rs-flow).

The definitions below are translated from the Rust sources of the current
library iteration, `src/libs/rs-flow/src` (connection.rs, ports.rs,
context/queue.rs, context/ctx.rs, context/mod.rs, flow.rs).  Where that
iteration references a helper that only the adjacent iteration
`src/crates/libs/rs-flow/src` defines, the definition is taken from there and
the doc comment says so.

Rust `HashMap` values are modelled as association lists (`List (k × v)`) with
first-match lookup; `VecDeque` as `List` with the head playing the role of the
deque front; panics and `expect` failures as `Option.none`; fallible results
as `Except`.  Unbounded recursion over the parent graph is modelled with an
explicit fuel argument.
-/

namespace RsFlow

/-- Component identifier, `type Id = usize` in component.rs. -/
abbrev Id := Nat

/-- Port identifier, `type PortId = u16` in ports.rs.  Port ids are only ever
compared for equality, so they are modelled as naturals. -/
abbrev PortId := Nat

/-! ### Association-list primitives standing in for `HashMap` -/

/-- First-match lookup, the model of `HashMap::get`. -/
def alookup {K V : Type} [DecidableEq K] : List (K × V) → K → Option V
  | [], _ => none
  | (k1, v1) :: rest, k => if k1 = k then some v1 else alookup rest k

/-- Replace the value bound to the first occurrence of a key, the model of a
write through `HashMap::get_mut` / `Entry::and_modify`. -/
def aupdate {K V : Type} [DecidableEq K] : List (K × V) → K → V → List (K × V)
  | [], _, _ => []
  | (k1, v1) :: rest, k, v => if k1 = k then (k, v) :: rest else (k1, v1) :: aupdate rest k v

/-- Update the binding of a key if present, otherwise append a new binding:
the model of `HashMap::insert` and of `Entry::or_insert`. -/
def ainsert {K V : Type} [DecidableEq K] (l : List (K × V)) (k : K) (v : V) : List (K × V) :=
  match alookup l k with
  | some _ => aupdate l k v
  | none => l ++ [(k, v)]

/-- Remove the first binding of a key, the model of `HashMap::remove`. -/
def aremove {K V : Type} [DecidableEq K] : List (K × V) → K → List (K × V)
  | [], _ => []
  | (k1, v1) :: rest, k => if k1 = k then rest else (k1, v1) :: aremove rest k

/-! ### connection.rs -/

/-- `Connection` from connection.rs: a directed edge from an output port of
one component to an input port of another.  The Rust fields `from` and `to`
are spelled `fromId` and `toId` because `from` is a Lean keyword. -/
structure Connection where
  fromId : Id
  out_port : PortId
  toId : Id
  in_port : PortId
deriving DecidableEq, Repr

/-- `Point` from connection.rs: one endpoint of a connection. -/
structure Point where
  id : Id
  port : PortId
deriving DecidableEq, Repr

/-- `Connection::from()`: the source endpoint. -/
def Connection.fromPoint (c : Connection) : Point := ⟨c.fromId, c.out_port⟩

/-- `Connection::to()`: the destination endpoint. -/
def Connection.toPoint (c : Connection) : Point := ⟨c.toId, c.in_port⟩

/-- The error enum of error.rs (the engine-level variants used by the
embedded operations; names as in the source). -/
inductive Error where
  | ComponentAlreadyExist (id : Id)
  | ComponentNotFound (id : Id)
  | ConnectionAlreadyExist (connection : Connection)
  | LoopCreated (connection : Connection)
  | InPortNotFound (component : Id) (in_port : PortId)
  | OutPortNotFound (component : Id) (out_port : PortId)
  | InvalidMultipleRecivedPorts (component : Id) (ports : List PortId)
  | AnyPackageConsumed (component : Id)
  | CannotAccessGlobal
deriving DecidableEq, Repr

/-- `Connections` from connection.rs: the edge index keyed by source endpoint
plus the direct-parent map used for ancestry queries. -/
structure Connections where
  parents : List (Id × List Id)
  connections : List (Point × List Point)
deriving DecidableEq, Repr

/-- `Connections::new` / `Default`. -/
def Connections.new : Connections := ⟨[], []⟩

/-- The parent list of a component; `self.parents.get(&id)` with a missing
entry behaving like an empty list (the Rust loop over it does nothing). -/
def Connections.parentsOf (g : Connections) (id : Id) : List Id :=
  (alookup g.parents id).getD []

/-- `Connections::ancestral_of` from src/libs/rs-flow/src/connection.rs:
true when `ancestral` equals `id` or some chain of `parents` entries starting
at `id` reaches `ancestral`.  The Rust recursion is unbounded; `fuel` bounds
the recursion depth here (each recursive call consumes one unit). -/
def Connections.ancestral_of (g : Connections) (fuel : Nat) (ancestral id : Id) : Bool :=
  if ancestral = id then true
  else
    match fuel with
    | 0 => false
    | fuel' + 1 => (g.parentsOf id).any fun parent =>
        parent = ancestral || g.ancestral_of fuel' ancestral parent

/-- `Connections::any_ancestral_of` from
src/crates/libs/rs-flow/src/connection/mod.rs, the variant that
`Ctxs::ready_components` invokes: true when some strict ancestor of `id`
(reachable through one or more `parents` steps) belongs to `ancestrals`. -/
def Connections.any_ancestral_of (g : Connections) : Nat → List Id → Id → Bool
  | 0, _, _ => false
  | fuel + 1, ancestrals, id => (g.parentsOf id).any fun parent =>
      ancestrals.contains parent || g.any_ancestral_of fuel ancestrals parent

/-- Single-ancestor specialization of the recursion of `any_ancestral_of`:
true when `a` is reachable from `id` through one or more `parents` steps of
length at most `fuel`. -/
def Connections.ancestorWithin (g : Connections) : Nat → Id → Id → Bool
  | 0, _, _ => false
  | fuel + 1, a, id => (g.parentsOf id).any fun parent =>
      parent = a || g.ancestorWithin fuel a parent

/-- The strict-ancestor relation computed by the terminating runs of the Rust
recursion: `a` is an ancestor of `id` when some finite parent chain connects
them. -/
def Connections.IsAncestor (g : Connections) (a id : Id) : Prop :=
  ∃ fuel, g.ancestorWithin fuel a id = true

/-- `Connections::add` from src/libs/rs-flow/src/connection.rs: reject with
`LoopCreated` when `connection.from` is already an ancestor of
`connection.to`, then with `ConnectionAlreadyExist` when the destination
endpoint is already among the source endpoint's targets, otherwise record the
edge and the parent link. -/
def Connections.add (g : Connections) (fuel : Nat) (connection : Connection) :
    Except Error Connections :=
  if g.ancestral_of fuel connection.fromId connection.toId then
    .error (.LoopCreated connection)
  else
    let to_ports := (alookup g.connections connection.fromPoint).getD []
    if to_ports.contains connection.toPoint then
      .error (.ConnectionAlreadyExist connection)
    else
      let conns := ainsert g.connections connection.fromPoint (to_ports ++ [connection.toPoint])
      let parents := (alookup g.parents connection.toId).getD []
      let parents :=
        if parents.contains connection.fromId then parents else parents ++ [connection.fromId]
      .ok ⟨ainsert g.parents connection.toId parents, conns⟩

/-- `Connections::from`: the ordered list of destination endpoints recorded
for a source endpoint (named `fromTargets` because `from` is a Lean
keyword). -/
def Connections.fromTargets (g : Connections) (p : Point) : Option (List Point) :=
  alookup g.connections p

/-- Fold `Connections::add` over a list of connections, stopping at the first
error; the shape of a build-up of a flow's graph. -/
def Connections.addSeq (g : Connections) (fuel : Nat) : List Connection → Except Error Connections
  | [] => .ok g
  | c :: rest =>
    match g.add fuel c with
    | .error e => .error e
    | .ok g1 => g1.addSeq fuel rest

/-! ### ports.rs -/

/-- `Port` from ports.rs. -/
structure Port where
  port : PortId
  label : Option String
  description : Option String
deriving DecidableEq, Repr

/-- `Port::new`. -/
def Port.new (port : PortId) : Port := ⟨port, none, none⟩

/-- The nested duplicate scan inside `Ports::new`: true when two ports at
distinct positions carry the same `port` id.  Labels are not examined by the
source. -/
def hasDupIds : List Port → Bool
  | [] => false
  | p :: rest => rest.any (fun q => p.port = q.port) || hasDupIds rest

/-- `Ports` from ports.rs. -/
structure Ports where
  list : List Port
deriving DecidableEq, Repr

/-- `Ports::new` from src/libs/rs-flow/src/ports.rs: panics (modelled as
`none`) exactly when two ports share an id; on success wraps the list. -/
def Ports.new (ports : List Port) : Option Ports :=
  if hasDupIds ports then none else some ⟨ports⟩

/-- `Ports::contains`. -/
def Ports.containsId (ps : Ports) (port : PortId) : Bool :=
  ps.list.any fun p => p.port = port

/-- `Ports::contains_label`. -/
def Ports.containsLabel (ps : Ports) (label : String) : Bool :=
  ps.list.any fun p => p.label = some label

/-! ### context/queue.rs -/

/-- `ReceiveQueue` from context/queue.rs: an input queue that is either open
(holding a deque of packages, head = front) or closed. -/
inductive ReceiveQueue (P : Type) where
  | Closed
  | Open (queue : List P)
deriving DecidableEq, Repr

/-- `ReceiveQueue::new`. -/
def ReceiveQueue.new {P : Type} : ReceiveQueue P := .Open []

/-- `ReceiveQueue::close`. -/
def ReceiveQueue.close {P : Type} (_ : ReceiveQueue P) : ReceiveQueue P := .Closed

/-- `ReceiveQueue::push_all`: append the delivered packages to an open queue;
a closed queue silently drops them. -/
def ReceiveQueue.push_all {P : Type} : ReceiveQueue P → List P → ReceiveQueue P
  | .Open queue, packages => .Open (queue ++ packages)
  | .Closed, _ => .Closed

/-- `ReceiveQueue::is_empty`. -/
def ReceiveQueue.isEmptyQ {P : Type} : ReceiveQueue P → Bool
  | .Open queue => queue.isEmpty
  | .Closed => true

/-- `ReceiveQueue::get_next`: pop the front package of an open queue. -/
def ReceiveQueue.get_next {P : Type} : ReceiveQueue P → Option P × ReceiveQueue P
  | .Open [] => (none, .Open [])
  | .Open (p :: rest) => (some p, .Open rest)
  | .Closed => (none, .Closed)

/-- `ReceiveQueue::get_all`: drain an open queue. -/
def ReceiveQueue.get_all {P : Type} : ReceiveQueue P → List P × ReceiveQueue P
  | .Open queue => (queue, .Open [])
  | .Closed => ([], .Closed)

/-- `ReceiveQueue::len`. -/
def ReceiveQueue.len {P : Type} : ReceiveQueue P → Nat
  | .Open queue => queue.length
  | .Closed => 0

/-! ### component.rs -/

/-- `Next` from component.rs. -/
inductive Next where
  | Continue
  | Break
deriving DecidableEq, Repr

/-- `Type` from component.rs (spelled `Ty` because `Type` is reserved). -/
inductive Ty where
  | Lazy
  | Eager
deriving DecidableEq, Repr

/-! ### context/ctx.rs -/

/-- `InnerCtx` from context/ctx.rs: a component's per-run state.  `send` maps
each output port to its emission buffer (a `VecDeque`, head = front);
`receive` maps each input port to its delivery queue.  The `global` handle is
omitted (opaque, untouched by the embedded operations). -/
structure InnerCtx (V : Type) where
  id : Id
  ty : Ty
  send : List (PortId × List V)
  receive : List (PortId × ReceiveQueue V)
  consumed : Bool
  cicle : Nat
deriving DecidableEq, Repr

/-- A component as assembled by `Component::new` in component.rs: the id, the
firing kind, the static input/output port descriptors and the user body.  The
body (`data.run`) is modelled as a pure function from the firing's context to
an updated context together with the `Next` decision, or an error; the opaque
global handle is not represented, as no embedded operation touches it. -/
structure Component (V : Type) where
  id : Id
  ty : Ty
  inputs : List Port
  outputs : List Port
  data : InnerCtx V → Except Error (InnerCtx V × Next)

/-- `InnerCtx::from` in context/ctx.rs: fresh empty send buffers for every
output port, fresh open receive queues for every input port. -/
def InnerCtx.fromComponent {V : Type} (component : Component V) : InnerCtx V where
  id := component.id
  ty := component.ty
  send := component.outputs.map fun port => (port.port, [])
  receive := component.inputs.map fun port => (port.port, ReceiveQueue.new)
  consumed := false
  cicle := 0

/-- `InnerCtx::close` in context/ctx.rs: set `consumed`, then close the
queue; an unknown input port panics (after `consumed` was already set), which
the model folds into `none`. -/
def InnerCtx.close {V : Type} (ctx : InnerCtx V) (port : PortId) : Option (InnerCtx V) :=
  let ctx1 : InnerCtx V := { ctx with consumed := true }
  match alookup ctx1.receive port with
  | none => none
  | some q => some { ctx1 with receive := aupdate ctx1.receive port q.close }

/-- `InnerCtx::receive` in context/ctx.rs: pop the next package of the
queue (possibly `none` on an empty or closed queue), then set `consumed`;
panic (`none`) on an unknown input port. -/
def InnerCtx.receivePort {V : Type} (ctx : InnerCtx V) (port : PortId) :
    Option (Option V × InnerCtx V) :=
  match alookup ctx.receive port with
  | none => none
  | some q =>
    let (package, q1) := q.get_next
    some (package, { ctx with receive := aupdate ctx.receive port q1, consumed := true })

/-- `InnerCtx::receive_all` in context/ctx.rs: set `consumed`, then drain the
queue; panic (`none`) on an unknown input port. -/
def InnerCtx.receive_all {V : Type} (ctx : InnerCtx V) (port : PortId) :
    Option (List V × InnerCtx V) :=
  let ctx1 : InnerCtx V := { ctx with consumed := true }
  match alookup ctx1.receive port with
  | none => none
  | some q =>
    let (packages, q1) := q.get_all
    some (packages, { ctx1 with receive := aupdate ctx1.receive port q1 })

/-- Pop the front of each listed queue in order, threading the receive map;
the second loop of `receive_many` (every queue already checked non-empty). -/
def popEach {V : Type} (receive : List (PortId × ReceiveQueue V)) :
    List PortId → Option (List V × List (PortId × ReceiveQueue V))
  | [] => some ([], receive)
  | port :: rest =>
    match alookup receive port with
    | none => none
    | some q =>
      match q.get_next with
      | (none, _) => none
      | (some v, q1) =>
        match popEach (aupdate receive port q1) rest with
        | none => none
        | some (vs, receive1) => some (v :: vs, receive1)

/-- `InnerCtx::receive_many` in context/ctx.rs: `HashMap::get_disjoint_mut`
panics on a repeated port (modelled as `none`); a port that is missing from
the receive map yields a `none` queue entry, which the emptiness check treats
like an empty queue, so the call returns `None` (here `some (none, ctx)`)
without touching `consumed`; when every listed queue holds a package, one is
popped from each and the call returns them, again leaving `consumed` as it
was. -/
def InnerCtx.receive_many {V : Type} (ctx : InnerCtx V) (ports : List PortId) :
    Option (Option (List V) × InnerCtx V) :=
  if ports.Nodup then
    let queues := ports.map fun p => alookup ctx.receive p
    if queues.any (fun q =>
        match q with
        | none => true
        | some q => q.isEmptyQ) then
      some (none, ctx)
    else
      match popEach ctx.receive ports with
      | none => none
      | some (vs, receive1) => some (some vs, { ctx with receive := receive1 })
  else
    none

/-- `InnerCtx::send` in context/ctx.rs: `push_front` the package onto the
output buffer; panic (`none`) on an unknown output port. -/
def InnerCtx.sendPort {V : Type} (ctx : InnerCtx V) (port : PortId) (package : V) :
    Option (InnerCtx V) :=
  match alookup ctx.send port with
  | none => none
  | some buffer => some { ctx with send := aupdate ctx.send port (package :: buffer) }

/-- `InnerCtx::send_all` in context/ctx.rs: extend the output buffer at the
back; panic (`none`) on an unknown output port. -/
def InnerCtx.send_all {V : Type} (ctx : InnerCtx V) (port : PortId) (packages : List V) :
    Option (InnerCtx V) :=
  match alookup ctx.send port with
  | none => none
  | some buffer => some { ctx with send := aupdate ctx.send port (buffer ++ packages) }

/-- Iterate `InnerCtx::send` over a list of packages in call order. -/
def InnerCtx.sendMany {V : Type} (ctx : InnerCtx V) (port : PortId) :
    List V → Option (InnerCtx V)
  | [] => some ctx
  | package :: rest =>
    match ctx.sendPort port package with
    | none => none
    | some ctx1 => ctx1.sendMany port rest

/-! ### context/mod.rs -/

/-- The `packages_received` accumulator of `Ctxs::refresh_queues`: packages
collected for each destination endpoint during the routing pass. -/
abbrev Received (V : Type) := List (Point × List V)

/-- The local `insert_or_append` of `Ctxs::refresh_queues`: append to the
entry of a destination endpoint, or create it. -/
def insert_or_append {V : Type} (point : Point) (packages : List V) (received : Received V) :
    Received V :=
  match alookup received point with
  | some queue => aupdate received point (queue ++ packages)
  | none => received ++ [(point, packages)]

/-- The fan-out `match to_ports.len()` of `Ctxs::refresh_queues`: zero
targets drop the buffer; one target receives it; with several targets the
clones go to targets `1..` in order and the original buffer goes to target
`0` last (cloning is the identity on values here). -/
def routeTargets {V : Type} (to_ports : List Point) (packages : List V)
    (received : Received V) : Received V :=
  match to_ports with
  | [] => received
  | [t] => insert_or_append t packages received
  | t0 :: rest =>
    insert_or_append t0 packages
      (rest.foldl (fun acc t => insert_or_append t packages acc) received)

/-- The inner loop of the routing pass of `Ctxs::refresh_queues` for one
context: walk the send map in order, skip empty buffers, swap each non-empty
buffer out (leaving it empty) and route it to the targets recorded for the
`(id, port)` endpoint. -/
def collectCtx {V : Type} (conns : Connections) (id : Id) :
    List (PortId × List V) → Received V → List (PortId × List V) × Received V
  | [], received => ([], received)
  | (port, send_queue) :: rest, received =>
    if send_queue.isEmpty then
      let r := collectCtx conns id rest received
      ((port, send_queue) :: r.1, r.2)
    else
      let received1 :=
        match conns.fromTargets ⟨id, port⟩ with
        | none => received
        | some to_ports => routeTargets to_ports send_queue received
      let r := collectCtx conns id rest received1
      ((port, []) :: r.1, r.2)

/-- The outer loop of the routing pass of `Ctxs::refresh_queues`: run
`collectCtx` over every context in order, rebuilding each context with its
emptied send map. -/
def routePhase {V : Type} (conns : Connections) :
    List (Id × InnerCtx V) → Received V →
    List (Id × InnerCtx V) × Received V
  | [], received => ([], received)
  | (id, ctx) :: rest, received =>
    let cr := collectCtx conns id ctx.send received
    let rr := routePhase conns rest cr.2
    ((id, { ctx with send := cr.1 }) :: rr.1, rr.2)

/-- One step of the delivery pass of `Ctxs::refresh_queues`: push the
packages collected for one destination endpoint onto the matching receive
queue when the destination context and queue exist (a closed queue drops
them inside `push_all`); otherwise discard the entry. -/
def deliverOne {V : Type} (contexts : List (Id × InnerCtx V)) (point : Point)
    (packages : List V) : List (Id × InnerCtx V) :=
  match alookup contexts point.id with
  | none => contexts
  | some ctx =>
    match alookup ctx.receive point.port with
    | none => contexts
    | some q =>
      aupdate contexts point.id
        { ctx with receive := aupdate ctx.receive point.port (q.push_all packages) }

/-- The delivery pass of `Ctxs::refresh_queues`: deliver every collected
`(point, packages)` entry in order. -/
def deliverPhase {V : Type} :
    Received V → List (Id × InnerCtx V) → List (Id × InnerCtx V)
  | [], contexts => contexts
  | (point, packages) :: rest, contexts =>
    deliverPhase rest (deliverOne contexts point packages)

/-- `Ctxs` from context/mod.rs: the scheduler's pool of contexts plus its
clone of the connection graph. -/
structure Ctxs (V : Type) where
  connections : Connections
  contexts : List (Id × InnerCtx V)
deriving DecidableEq, Repr

/-- `Ctxs::new`: one fresh context per component. -/
def Ctxs.new {V : Type} (components : List (Id × Component V)) (connections : Connections) :
    Ctxs V where
  connections := connections
  contexts := components.map fun ic => (ic.1, InnerCtx.fromComponent ic.2)

/-- `Ctxs::borrow`: detach a context from the pool. -/
def Ctxs.borrow {V : Type} (cs : Ctxs V) (id : Id) : Option (InnerCtx V) × Ctxs V :=
  (alookup cs.contexts id, { cs with contexts := aremove cs.contexts id })

/-- `Ctxs::give_back`: reattach a context under its own id. -/
def Ctxs.give_back {V : Type} (cs : Ctxs V) (ctx : InnerCtx V) : Ctxs V :=
  { cs with contexts := ainsert cs.contexts ctx.id ctx }

/-- `Ctxs::refresh_queues` from src/libs/rs-flow/src/context/mod.rs: route
every pending send buffer to its downstream endpoints, then deliver the
collected packages into the receive queues. -/
def Ctxs.refresh_queues {V : Type} (cs : Ctxs V) : Ctxs V :=
  let r := routePhase cs.connections cs.contexts []
  { cs with contexts := deliverPhase r.2 r.1 }

/-- `Ctxs::entry_points`: ids of contexts with no input queue at all. -/
def Ctxs.entry_points {V : Type} (cs : Ctxs V) : List Id :=
  (cs.contexts.filter fun ic => ic.2.receive.length = 0).map fun ic => ic.1

/-- The base-candidate filter of `Ctxs::ready_components`: components with at
least one input port, all of whose input queues are non-empty (a closed queue
has length 0 and thus blocks readiness). -/
def Ctxs.base_candidates {V : Type} (cs : Ctxs V) : List Id :=
  cs.contexts.filterMap fun ic =>
    if ic.2.receive.length = 0 then none
    else if ic.2.receive.all (fun pq => pq.2.len > 0) then some ic.1
    else none

/-- `Ctxs::ready_components` from context/mod.rs: start from the base
candidates, then drop every Eager candidate some strict ancestor of which is
itself a candidate (`connections.any_ancestral_of(&ready, id)` in the
compiling iteration, src/crates/libs/rs-flow/src/context/mod.rs); Lazy
candidates are kept unconditionally.  A candidate id that is missing from the
context map is unreachable (the source unwraps it with `expect`); the model
returns `false` for it. -/
def Ctxs.ready_components {V : Type} (cs : Ctxs V) (connections : Connections)
    (fuel : Nat) : List Id :=
  let ready := cs.base_candidates
  let eager_not_ready := ready.filter fun id =>
    match alookup cs.contexts id with
    | some ctx =>
      match ctx.ty with
      | .Eager => connections.any_ancestral_of fuel ready id
      | .Lazy => false
    | none => false
  ready.filter fun id => ¬ eager_not_ready.contains id

/-! ### flow.rs -/

/-- `Flow` from flow.rs: the built components keyed by id plus the connection
graph. -/
structure Flow (V : Type) where
  components : List (Id × Component V)
  connections : Connections

/-- `Flow::new`. -/
def Flow.new {V : Type} : Flow V := ⟨[], Connections.new⟩

/-- `Flow::add_component` from flow.rs: reject a duplicate id, otherwise
insert. -/
def Flow.add_component {V : Type} (f : Flow V) (component : Component V) :
    Except Error (Flow V) :=
  match alookup f.components component.id with
  | some _ => .error (.ComponentAlreadyExist component.id)
  | none => .ok { f with components := ainsert f.components component.id component }

/-- `Flow::add_connection` from src/libs/rs-flow/src/flow.rs: check that the
source component exists and has the output port, that the destination
component exists and has the input port, then defer to `Connections::add`.
The `InPortNotFound` branch reports `connection.from` as the offending
component, exactly as the source does. -/
def Flow.add_connection {V : Type} (f : Flow V) (fuel : Nat) (connection : Connection) :
    Except Error (Flow V) :=
  match alookup f.components connection.fromId with
  | some component =>
    if component.outputs.any fun p => p.port = connection.out_port then
      match alookup f.components connection.toId with
      | some component2 =>
        if component2.inputs.any fun p => p.port = connection.in_port then
          match f.connections.add fuel connection with
          | .error e => .error e
          | .ok conns => .ok { f with connections := conns }
        else
          .error (.InPortNotFound connection.fromId connection.in_port)
      | none => .error (.ComponentNotFound connection.toId)
    else
      .error (.OutPortNotFound connection.fromId connection.out_port)
  | none => .error (.ComponentNotFound connection.fromId)

/-- The firing pass of one cycle of `Flow::run`: for each ready id in order,
detach its context, reset `consumed`, stamp the cycle number and run the
component body.  `try_join_all` is modelled sequentially: the first body
error aborts the pass.  A ready id without a pooled context or component
panics in the source (`expect`) and yields `none` here. -/
def fireReady {V : Type} (components : List (Id × Component V)) (cs : Ctxs V)
    (cicle : Nat) : List Id → Option (Except Error (List (InnerCtx V × Next)) × Ctxs V)
  | [] => some (.ok [], cs)
  | id :: rest =>
    match alookup cs.contexts id with
    | none => none
    | some ctx =>
      let cs1 : Ctxs V := { cs with contexts := aremove cs.contexts id }
      let ctx := { ctx with consumed := false, cicle := cicle }
      match alookup components id with
      | none => none
      | some component =>
        match component.data ctx with
        | .error e => some (.error e, cs1)
        | .ok (ctx1, next) =>
          match fireReady components cs1 cicle rest with
          | none => none
          | some (.error e, cs2) => some (.error e, cs2)
          | some (.ok results, cs2) => some (.ok ((ctx1, next) :: results), cs2)

/-- The post-firing loop of `Flow::run`: walk the collected results in order;
a context that did not consume, outside the very first cycle, aborts with
`AnyPackageConsumed` for that component; otherwise the context is given
back. -/
def giveBackChecked {V : Type} (cs : Ctxs V) (first : Bool) :
    List (InnerCtx V × Next) → Except Error (Ctxs V)
  | [] => .ok cs
  | (ctx, _) :: rest =>
    if ¬ ctx.consumed ∧ ¬ first then .error (.AnyPackageConsumed ctx.id)
    else giveBackChecked (cs.give_back ctx) first rest

/-- Outcome of one iteration of the `while` loop of `Flow::run`. -/
inductive CycleResult (V : Type) where
  | halt
  | fail (e : Error)
  | proceed (cs : Ctxs V) (ready : List Id)

/-- One iteration of the `while` loop of `Flow::run`: fire the ready set,
propagate a body error, terminate when any firing returned `Break`, enforce
the consumed check while giving contexts back, refresh the queues and compute
the next ready set. -/
def runCycle {V : Type} (components : List (Id × Component V)) (connections : Connections)
    (cs : Ctxs V) (ready : List Id) (first : Bool) (cicle : Nat) (ancFuel : Nat) :
    Option (CycleResult V) :=
  match fireReady components cs cicle ready with
  | none => none
  | some (.error e, _) => some (.fail e)
  | some (.ok results, cs1) =>
    if results.any (fun rn => rn.2 = .Break) then some .halt
    else
      match giveBackChecked cs1 first results with
      | .error e => some (.fail e)
      | .ok cs2 =>
        let cs3 := cs2.refresh_queues
        some (.proceed cs3 (cs3.ready_components connections ancFuel))

/-- The `while !ready_components.is_empty()` loop of `Flow::run`, with an
explicit bound on the number of cycles (`none` when the bound runs out or a
modelled panic occurs).  On normal termination the scheduler would hand the
global back; the model returns `Unit`. -/
def runLoop {V : Type} (components : List (Id × Component V)) (connections : Connections) :
    Ctxs V → List Id → Bool → Nat → Nat → Nat → Option (Except Error Unit)
  | _, _, _, _, _, 0 => none
  | cs, ready, first, cicle, ancFuel, fuel + 1 =>
    if ready.isEmpty then some (.ok ())
    else
      match runCycle components connections cs ready first cicle ancFuel with
      | none => none
      | some .halt => some (.ok ())
      | some (.fail e) => some (.error e)
      | some (.proceed cs1 ready1) =>
        runLoop components connections cs1 ready1 false (cicle + 1) ancFuel fuel

/-- `Flow::run` from src/libs/rs-flow/src/flow.rs: build the context pool,
seed the ready set with the entry points, and drive the cycle loop starting
at cycle 1 with the first-cycle exemption armed. -/
def Flow.run {V : Type} (f : Flow V) (ancFuel fuel : Nat) : Option (Except Error Unit) :=
  let cs := Ctxs.new f.components f.connections
  runLoop f.components f.connections cs cs.entry_points true 1 ancFuel fuel

/-! ### Observation helpers -/

/-- The receive queue sitting at an input endpoint of the pool. -/
def queueAt {V : Type} (contexts : List (Id × InnerCtx V)) (p : Point) :
    Option (ReceiveQueue V) :=
  (alookup contexts p.id).bind fun ctx => alookup ctx.receive p.port

/-- Total number of packages parked in one context's receive queues. -/
def ctxReceiveLen {V : Type} (ctx : InnerCtx V) : Nat :=
  (ctx.receive.map fun pq => pq.2.len).sum

/-- Total number of packages parked across all receive queues of a pool. -/
def totalReceiveLen {V : Type} (contexts : List (Id × InnerCtx V)) : Nat :=
  (contexts.map fun ic => ctxReceiveLen ic.2).sum

/-! ### Association-list lemmas -/

theorem alookup_append_of_some {K V : Type} [DecidableEq K] {l1 : List (K × V)}
    (l2 : List (K × V)) {k : K} {v : V} (h : alookup l1 k = some v) :
    alookup (l1 ++ l2) k = some v := by
  induction l1 with
  | nil => simp [alookup] at h
  | cons hd tl ih =>
    cases hd with
    | mk k1 v1 =>
      by_cases hk : k1 = k
      · simp [alookup, hk] at h ⊢; exact h
      · simp [alookup, hk] at h ⊢; exact ih h

theorem alookup_append_of_none {K V : Type} [DecidableEq K] {l1 : List (K × V)}
    (l2 : List (K × V)) {k : K} (h : alookup l1 k = none) :
    alookup (l1 ++ l2) k = alookup l2 k := by
  induction l1 with
  | nil => simp [alookup]
  | cons hd tl ih =>
    cases hd with
    | mk k1 v1 =>
      by_cases hk : k1 = k
      · simp [alookup, hk] at h
      · simp [alookup, hk] at h ⊢; exact ih h

theorem alookup_singleton {K V : Type} [DecidableEq K] (k1 k : K) (v : V) :
    alookup [(k1, v)] k = if k1 = k then some v else none := by
  simp [alookup]

theorem alookup_aupdate_self {K V : Type} [DecidableEq K] (l : List (K × V)) (k : K) (v : V) :
    alookup (aupdate l k v) k = (alookup l k).map fun _ => v := by
  induction l with
  | nil => simp [alookup, aupdate]
  | cons hd tl ih =>
    cases hd with
    | mk k1 v1 =>
      by_cases hk : k1 = k
      · simp [alookup, aupdate, hk]
      · simp [alookup, aupdate, hk, ih]

theorem alookup_aupdate_ne {K V : Type} [DecidableEq K] (l : List (K × V)) {k k' : K} (v : V)
    (h : k' ≠ k) : alookup (aupdate l k v) k' = alookup l k' := by
  induction l with
  | nil => simp [alookup, aupdate]
  | cons hd tl ih =>
    cases hd with
    | mk k1 v1 =>
      by_cases hk : k1 = k
      · subst hk
        have : ¬ (k1 = k') := fun he => h he.symm
        simp [alookup, aupdate, this]
      · by_cases hk' : k1 = k'
        · subst hk'
          simp [alookup, aupdate, hk]
        · simp [alookup, aupdate, hk, hk', ih]

theorem aupdate_aupdate {K V : Type} [DecidableEq K] (l : List (K × V)) (k : K) (v w : V) :
    aupdate (aupdate l k v) k w = aupdate l k w := by
  induction l with
  | nil => simp [aupdate]
  | cons hd tl ih =>
    cases hd with
    | mk k1 v1 =>
      by_cases hk : k1 = k
      · simp [aupdate, hk]
      · simp [aupdate, hk, ih]

theorem map_fst_aupdate {K V : Type} [DecidableEq K] (l : List (K × V)) (k : K) (v : V) :
    (aupdate l k v).map Prod.fst = l.map Prod.fst := by
  induction l with
  | nil => simp [aupdate]
  | cons hd tl ih =>
    cases hd with
    | mk k1 v1 =>
      by_cases hk : k1 = k
      · subst hk
        simp [aupdate]
      · simp [aupdate, hk, ih]

theorem mem_aupdate_self {K V : Type} [DecidableEq K] {l : List (K × V)} {k : K} {v0 : V}
    (v : V) (h : alookup l k = some v0) : (k, v) ∈ aupdate l k v := by
  induction l with
  | nil => simp [alookup] at h
  | cons hd tl ih =>
    cases hd with
    | mk k1 v1 =>
      by_cases hk : k1 = k
      · simp [aupdate, hk]
      · simp [alookup, hk] at h
        simp [aupdate, hk]
        exact Or.inr (ih h)

theorem mem_aupdate_elim {K V : Type} [DecidableEq K] {l : List (K × V)} {k : K} {v : V}
    {pb : K × V} (h : pb ∈ aupdate l k v) : pb = (k, v) ∨ pb ∈ l := by
  induction l with
  | nil => simp [aupdate] at h
  | cons hd tl ih =>
    cases hd with
    | mk k1 v1 =>
      by_cases hk : k1 = k
      · simp [aupdate, hk] at h
        rcases h with h | h
        · exact Or.inl h
        · exact Or.inr (List.mem_cons_of_mem _ h)
      · simp [aupdate, hk] at h
        rcases h with h | h
        · exact Or.inr (by simp [h])
        · rcases ih h with h1 | h1
          · exact Or.inl h1
          · exact Or.inr (List.mem_cons_of_mem _ h1)

/-- Replacing a bound value with a new one changes a value-weighted sum by
exactly the swap of the two weights. -/
theorem sum_map_aupdate {K V : Type} [DecidableEq K] (g : V → Nat) (l : List (K × V))
    (k : K) (v v0 : V) (h : alookup l k = some v0) :
    ((aupdate l k v).map fun kv => g kv.2).sum + g v0 =
      (l.map fun kv => g kv.2).sum + g v := by
  induction l with
  | nil => simp [alookup] at h
  | cons hd tl ih =>
    cases hd with
    | mk k1 v1 =>
      by_cases hk : k1 = k
      · simp [alookup, hk] at h
        subst h
        simp [aupdate, hk]
        omega
      · simp [alookup, hk] at h
        simp [aupdate, hk]
        have := ih h
        omega

/-! ### Lemmas about the delivery pass -/

theorem queueAt_eq_some {V : Type} {contexts : List (Id × InnerCtx V)} {p : Point}
    {q : ReceiveQueue V} :
    queueAt contexts p = some q ↔
      ∃ ctx, alookup contexts p.id = some ctx ∧ alookup ctx.receive p.port = some q := by
  unfold queueAt
  cases h : alookup contexts p.id with
  | none => simp
  | some ctx => simp

theorem deliverOne_lookup_eq {V : Type} {contexts : List (Id × InnerCtx V)}
    {point : Point} (packages : List V) {ctx : InnerCtx V} {q : ReceiveQueue V}
    (h1 : alookup contexts point.id = some ctx)
    (h2 : alookup ctx.receive point.port = some q) :
    deliverOne contexts point packages =
      aupdate contexts point.id
        { ctx with receive := aupdate ctx.receive point.port (q.push_all packages) } := by
  unfold deliverOne
  split
  · rename_i heq
    rw [h1] at heq
    exact absurd heq (by simp)
  · rename_i ctx1 heq
    rw [h1] at heq
    injection heq with heq
    subst heq
    split
    · rename_i heq2
      rw [h2] at heq2
      exact absurd heq2 (by simp)
    · rename_i q1 heq2
      rw [h2] at heq2
      injection heq2 with heq2
      subst heq2
      rfl

theorem deliverOne_queueAt_ne {V : Type} (contexts : List (Id × InnerCtx V))
    (point : Point) (packages : List V) {p : Point} (hne : p ≠ point) :
    queueAt (deliverOne contexts point packages) p = queueAt contexts p := by
  unfold deliverOne
  split
  · rfl
  · rename_i ctx h1
    split
    · rfl
    · rename_i q h2
      by_cases hid : p.id = point.id
      · have hport : p.port ≠ point.port := by
          intro hp
          exact hne (by cases p; cases point; simp_all)
        unfold queueAt
        rw [hid, alookup_aupdate_self, h1]
        exact alookup_aupdate_ne ctx.receive _ hport
      · unfold queueAt
        rw [alookup_aupdate_ne contexts _ hid]

theorem deliverOne_queueAt_self {V : Type} {contexts : List (Id × InnerCtx V)}
    {point : Point} (packages : List V) {q : List V}
    (hq : queueAt contexts point = some (.Open q)) :
    queueAt (deliverOne contexts point packages) point = some (.Open (q ++ packages)) := by
  rcases queueAt_eq_some.mp hq with ⟨ctx, h1, h2⟩
  rw [deliverOne_lookup_eq packages h1 h2]
  unfold queueAt
  rw [alookup_aupdate_self, h1]
  show alookup (aupdate ctx.receive point.port ((ReceiveQueue.Open q).push_all packages))
      point.port = some (.Open (q ++ packages))
  rw [alookup_aupdate_self, h2]
  rfl

theorem deliverOne_totalLen {V : Type} {contexts : List (Id × InnerCtx V)}
    {point : Point} (packages : List V) {q : List V}
    (hq : queueAt contexts point = some (.Open q)) :
    totalReceiveLen (deliverOne contexts point packages) =
      totalReceiveLen contexts + packages.length := by
  rcases queueAt_eq_some.mp hq with ⟨ctx, h1, h2⟩
  rw [deliverOne_lookup_eq packages h1 h2]
  have hpush : (ReceiveQueue.Open q).push_all packages = ReceiveQueue.Open (q ++ packages) := rfl
  rw [hpush]
  have hinner := sum_map_aupdate ReceiveQueue.len ctx.receive point.port
    (ReceiveQueue.Open (q ++ packages)) (.Open q) h2
  have houter := sum_map_aupdate ctxReceiveLen contexts point.id
    { ctx with receive := aupdate ctx.receive point.port (ReceiveQueue.Open (q ++ packages)) }
    ctx h1
  have hc : ctxReceiveLen
      { ctx with receive := aupdate ctx.receive point.port (ReceiveQueue.Open (q ++ packages)) } =
      ((aupdate ctx.receive point.port (ReceiveQueue.Open (q ++ packages))).map
        fun pq => pq.2.len).sum := rfl
  have hS : ctxReceiveLen ctx = (ctx.receive.map fun pq => pq.2.len).sum := rfl
  have hq1 : (ReceiveQueue.Open q).len = q.length := rfl
  have hq2 : (ReceiveQueue.Open (q ++ packages)).len = q.length + packages.length := by
    simp [ReceiveQueue.len]
  rw [hc, hS] at houter
  rw [hq1, hq2] at hinner
  unfold totalReceiveLen
  omega

theorem deliverPhase_queueAt_of_not_mem {V : Type} (received : Received V)
    (contexts : List (Id × InnerCtx V)) {p : Point}
    (h : ∀ e ∈ received, e.1 ≠ p) :
    queueAt (deliverPhase received contexts) p = queueAt contexts p := by
  induction received generalizing contexts with
  | nil => rfl
  | cons hd tl ih =>
    cases hd with
    | mk pt pk =>
      have hne : p ≠ pt := fun he => (h (pt, pk) (by simp)) (by simp [he])
      unfold deliverPhase
      rw [ih _ fun e he => h e (List.mem_cons_of_mem _ he)]
      exact deliverOne_queueAt_ne contexts pt pk hne

theorem deliverPhase_queueAt_of_mem {V : Type} {received : Received V}
    {contexts : List (Id × InnerCtx V)} {p : Point} {pkgs q : List V}
    (hpw : received.Pairwise fun e1 e2 => e1.1 ≠ e2.1)
    (hmem : (p, pkgs) ∈ received)
    (hq : queueAt contexts p = some (.Open q)) :
    queueAt (deliverPhase received contexts) p = some (.Open (q ++ pkgs)) := by
  induction received generalizing contexts with
  | nil => simp at hmem
  | cons hd tl ih =>
    cases hd with
    | mk pt pk =>
      rcases List.mem_cons.mp hmem with heq | hmem2
      · injection heq with he1 he2
        subst he1
        subst he2
        unfold deliverPhase
        rw [deliverPhase_queueAt_of_not_mem _ _
          (fun e he => ((List.pairwise_cons.mp hpw).1 e he).symm)]
        exact deliverOne_queueAt_self pkgs hq
      · have hne : p ≠ pt := by
          intro he
          exact ((List.pairwise_cons.mp hpw).1 (p, pkgs) hmem2) (by simp [he])
        unfold deliverPhase
        exact ih (List.pairwise_cons.mp hpw).2 hmem2
          (by rw [deliverOne_queueAt_ne contexts pt pk hne]; exact hq)

theorem deliverPhase_totalLen {V : Type} {received : Received V}
    {contexts : List (Id × InnerCtx V)}
    (hpw : received.Pairwise fun e1 e2 => e1.1 ≠ e2.1)
    (hopen : ∀ e ∈ received, ∃ q, queueAt contexts e.1 = some (.Open q)) :
    totalReceiveLen (deliverPhase received contexts) =
      totalReceiveLen contexts + (received.map fun e => e.2.length).sum := by
  induction received generalizing contexts with
  | nil => simp [deliverPhase]
  | cons hd tl ih =>
    cases hd with
    | mk pt pk =>
      rcases hopen (pt, pk) (by simp) with ⟨q, hq⟩
      unfold deliverPhase
      rw [ih (List.pairwise_cons.mp hpw).2]
      · rw [deliverOne_totalLen pk hq]
        simp
        omega
      · intro e he
        rcases hopen e (List.mem_cons_of_mem _ he) with ⟨qe, hqe⟩
        refine ⟨qe, ?_⟩
        rw [deliverOne_queueAt_ne contexts pt pk
          (fun hh => ((List.pairwise_cons.mp hpw).1 e he).symm (by rw [hh]))]
        exact hqe

/-! ### Lemmas about the routing pass -/

theorem collectCtx_all_empty {V : Type} (conns : Connections) (id : Id)
    {send : List (PortId × List V)} (received : Received V)
    (h : ∀ pb ∈ send, pb.2 = []) :
    collectCtx conns id send received = (send, received) := by
  induction send generalizing received with
  | nil => rfl
  | cons hd tl ih =>
    cases hd with
    | mk p b =>
      have hb : b = [] := h (p, b) (by simp)
      subst hb
      unfold collectCtx
      simp only [List.isEmpty_nil, if_pos]
      rw [ih received fun pb hpb => h pb (List.mem_cons_of_mem _ hpb)]

theorem collectCtx_single_sender {V : Type} (conns : Connections) (id : Id)
    {send : List (PortId × List V)} {o : PortId} {B : List V} (received : Received V)
    (hmem : (o, B) ∈ send)
    (hsend : ∀ pb ∈ send, (pb.1 = o ∧ pb.2 = B) ∨ (pb.1 ≠ o ∧ pb.2 = []))
    (hnd : (send.map Prod.fst).Nodup)
    (hB : B ≠ []) :
    (collectCtx conns id send received).2 =
      match conns.fromTargets ⟨id, o⟩ with
      | none => received
      | some to_ports => routeTargets to_ports B received := by
  induction send generalizing received with
  | nil => simp at hmem
  | cons hd tl ih =>
    cases hd with
    | mk p b =>
    rcases hsend (p, b) (by simp) with ⟨hp, hb⟩ | ⟨hp, hb⟩
    · subst hp
      subst hb
      have hrest : ∀ pb ∈ tl, pb.2 = ([] : List V) := by
        intro pb hpb
        rcases hsend pb (List.mem_cons_of_mem _ hpb) with ⟨hp1, _⟩ | ⟨_, hb1⟩
        · exfalso
          have hmm : pb.1 ∈ tl.map Prod.fst := List.mem_map_of_mem _ hpb
          rw [hp1] at hmm
          exact (List.nodup_cons.mp hnd).1 hmm
        · exact hb1
      unfold collectCtx
      rw [if_neg (by simp [hB])]
      cases hft : conns.fromTargets ⟨id, p⟩ with
      | none =>
        show (collectCtx conns id tl received).2 = received
        rw [collectCtx_all_empty conns id received hrest]
      | some to_ports =>
        show (collectCtx conns id tl (routeTargets to_ports b received)).2 =
          routeTargets to_ports b received
        rw [collectCtx_all_empty conns id (routeTargets to_ports b received) hrest]
    · have hmem2 : (o, B) ∈ tl := by
        rcases List.mem_cons.mp hmem with he | hm
        · injection he with he1 he2
          exact absurd he1.symm hp
        · exact hm
      subst hb
      unfold collectCtx
      simp only [List.isEmpty_nil, if_pos]
      exact ih received hmem2
        (fun pb hpb => hsend pb (List.mem_cons_of_mem _ hpb))
        (List.nodup_cons.mp hnd).2

theorem routePhase_all_empty {V : Type} (conns : Connections)
    {contexts : List (Id × InnerCtx V)} (received : Received V)
    (h : ∀ e ∈ contexts, ∀ pb ∈ e.2.send, pb.2 = []) :
    (routePhase conns contexts received).2 = received := by
  induction contexts generalizing received with
  | nil => rfl
  | cons hd tl ih =>
    cases hd with
    | mk id ctx =>
    unfold routePhase
    rw [collectCtx_all_empty conns id received fun pb hpb => h (id, ctx) (by simp) pb hpb]
    exact ih received fun e he pb hpb => h e (List.mem_cons_of_mem _ he) pb hpb

theorem routePhase_receive_map {V : Type} (conns : Connections)
    (contexts : List (Id × InnerCtx V)) (received : Received V) :
    (routePhase conns contexts received).1.map (fun ic => (ic.1, ic.2.receive)) =
      contexts.map fun ic => (ic.1, ic.2.receive) := by
  induction contexts generalizing received with
  | nil => rfl
  | cons hd tl ih =>
    cases hd with
    | mk id ctx =>
    unfold routePhase
    simp only [List.map_cons, List.cons.injEq]
    exact ⟨trivial, ih (collectCtx conns id ctx.send received).2⟩

theorem routePhase_single_sender {V : Type} (conns : Connections)
    {pre post : List (Id × InnerCtx V)} {a : Id} {ctxA : InnerCtx V}
    {o : PortId} {B : List V} (received : Received V)
    (hpre : ∀ e ∈ pre, ∀ pb ∈ e.2.send, pb.2 = ([] : List V))
    (hpost : ∀ e ∈ post, ∀ pb ∈ e.2.send, pb.2 = ([] : List V))
    (hmem : (o, B) ∈ ctxA.send)
    (hsend : ∀ pb ∈ ctxA.send, (pb.1 = o ∧ pb.2 = B) ∨ (pb.1 ≠ o ∧ pb.2 = []))
    (hnd : (ctxA.send.map Prod.fst).Nodup)
    (hB : B ≠ []) :
    (routePhase conns (pre ++ (a, ctxA) :: post) received).2 =
      match conns.fromTargets ⟨a, o⟩ with
      | none => received
      | some to_ports => routeTargets to_ports B received := by
  induction pre generalizing received with
  | nil =>
    simp only [List.nil_append]
    simp only [routePhase]
    rw [collectCtx_single_sender conns a received hmem hsend hnd hB]
    exact routePhase_all_empty conns _ hpost
  | cons hd tl ih =>
    cases hd with
    | mk id ctx =>
    simp only [List.cons_append]
    unfold routePhase
    rw [collectCtx_all_empty conns id received fun pb hpb => hpre (id, ctx) (by simp) pb hpb]
    exact ih received fun e he pb hpb => hpre e (List.mem_cons_of_mem _ he) pb hpb

theorem queueAt_of_receive_map_eq {V : Type} {l1 l2 : List (Id × InnerCtx V)}
    (h : l1.map (fun ic => (ic.1, ic.2.receive)) = l2.map fun ic => (ic.1, ic.2.receive)) :
    ∀ p, queueAt l1 p = queueAt l2 p := by
  induction l1 generalizing l2 with
  | nil =>
    cases l2 with
    | nil => intro p; rfl
    | cons hd tl => simp at h
  | cons hd tl ih =>
    cases l2 with
    | nil => simp at h
    | cons hd2 tl2 =>
      simp only [List.map_cons, List.cons.injEq, Prod.mk.injEq] at h
      intro p
      unfold queueAt
      simp only [alookup]
      have hid : hd.1 = hd2.1 := h.1.1
      have hrecv : hd.2.receive = hd2.2.receive := h.1.2
      by_cases hp : hd.1 = p.id
      · rw [if_pos hp, if_pos (hid ▸ hp)]
        show alookup hd.2.receive p.port = alookup hd2.2.receive p.port
        rw [hrecv]
      · rw [if_neg hp, if_neg (hid ▸ hp)]
        exact ih h.2 p

theorem totalLen_of_receive_map_eq {V : Type} {l1 l2 : List (Id × InnerCtx V)}
    (h : l1.map (fun ic => (ic.1, ic.2.receive)) = l2.map fun ic => (ic.1, ic.2.receive)) :
    totalReceiveLen l1 = totalReceiveLen l2 := by
  induction l1 generalizing l2 with
  | nil =>
    cases l2 with
    | nil => rfl
    | cons hd tl => simp at h
  | cons hd tl ih =>
    cases l2 with
    | nil => simp at h
    | cons hd2 tl2 =>
      simp only [List.map_cons, List.cons.injEq, Prod.mk.injEq] at h
      have hrecv : hd.2.receive = hd2.2.receive := h.1.2
      unfold totalReceiveLen ctxReceiveLen
      simp only [List.map_cons, List.sum_cons, hrecv]
      have := ih h.2
      unfold totalReceiveLen ctxReceiveLen at this
      rw [this]

theorem foldl_insert_fresh {V : Type} (B : List V) :
    ∀ (pts : List Point) (acc : Received V),
    (∀ t ∈ pts, alookup acc t = none) → pts.Nodup →
    pts.foldl (fun acc2 t => insert_or_append t B acc2) acc =
      acc ++ pts.map fun t => (t, B) := by
  intro pts
  induction pts with
  | nil => intro acc _ _; simp
  | cons hd tl ih =>
    intro acc hfresh hnd
    simp only [List.foldl_cons]
    have hstep : insert_or_append hd B acc = acc ++ [(hd, B)] := by
      unfold insert_or_append
      rw [hfresh hd (by simp)]
    rw [hstep, ih (acc ++ [(hd, B)])]
    · simp
    · intro t ht
      have hne : hd ≠ t := fun he => (List.nodup_cons.mp hnd).1 (he ▸ ht)
      rw [alookup_append_of_none _ (hfresh t (List.mem_cons_of_mem _ ht))]
      simp [alookup, hne]
    · exact (List.nodup_cons.mp hnd).2

theorem alookup_map_pair_none {K V : Type} [DecidableEq K] (B : V) {ks : List K} {k : K}
    (h : k ∉ ks) : alookup (ks.map fun t => (t, B)) k = none := by
  induction ks with
  | nil => rfl
  | cons hd tl ih =>
    have hne : hd ≠ k := fun he => h (by simp [he])
    simp only [List.map_cons, alookup, if_neg hne]
    exact ih fun hm => h (List.mem_cons_of_mem _ hm)

theorem routeTargets_from_empty {V : Type} (B : List V) (t0 : Point) (rest : List Point)
    (hnd : (t0 :: rest).Nodup) :
    routeTargets (t0 :: rest) B ([] : Received V) =
      (rest.map fun t => (t, B)) ++ [(t0, B)] := by
  cases rest with
  | nil => simp [routeTargets, insert_or_append, alookup]
  | cons t1 rest1 =>
    show insert_or_append t0 B
        ((t1 :: rest1).foldl (fun acc t => insert_or_append t B acc) []) =
      ((t1 :: rest1).map fun t => (t, B)) ++ [(t0, B)]
    rw [foldl_insert_fresh B (t1 :: rest1) [] (fun t _ => rfl) (List.nodup_cons.mp hnd).2]
    unfold insert_or_append
    rw [List.nil_append, alookup_map_pair_none B (List.nodup_cons.mp hnd).1]

theorem aupdate_self_value {K V : Type} [DecidableEq K] {l : List (K × V)} {k : K} {v : V}
    (h : alookup l k = some v) : aupdate l k v = l := by
  induction l with
  | nil => rfl
  | cons hd tl ih =>
    cases hd with
    | mk k1 v1 =>
      by_cases hk : k1 = k
      · simp [alookup, hk] at h
        simp [aupdate, hk, h]
      · simp [alookup, hk] at h
        simp [aupdate, hk, ih h]

theorem mem_aupdate_elim_nodup {K V : Type} [DecidableEq K] {l : List (K × V)} {k : K}
    {v v0 : V} {pb : K × V} (hnd : (l.map Prod.fst).Nodup)
    (hk : alookup l k = some v0) (h : pb ∈ aupdate l k v) :
    pb = (k, v) ∨ (pb ∈ l ∧ pb.1 ≠ k) := by
  induction l with
  | nil => simp [aupdate] at h
  | cons hd tl ih =>
    cases hd with
    | mk k1 v1 =>
      by_cases hk1 : k1 = k
      · subst hk1
        simp only [aupdate, if_pos rfl] at h
        rcases List.mem_cons.mp h with he | hm
        · exact Or.inl he
        · refine Or.inr ⟨List.mem_cons_of_mem _ hm, fun hpk => ?_⟩
          have hpm : pb.1 ∈ tl.map Prod.fst := List.mem_map_of_mem _ hm
          rw [hpk] at hpm
          exact (List.nodup_cons.mp hnd).1 hpm
      · simp only [aupdate, if_neg hk1] at h
        rcases List.mem_cons.mp h with he | hm
        · subst he
          exact Or.inr ⟨by simp, hk1⟩
        · simp only [alookup, if_neg hk1] at hk
          rcases ih (List.nodup_cons.mp hnd).2 hk hm with he | ⟨hm1, hne⟩
          · exact Or.inl he
          · exact Or.inr ⟨List.mem_cons_of_mem _ hm1, hne⟩

/-- One `send` call prepends the package to the output buffer. -/
theorem sendPort_eq {V : Type} {ctx : InnerCtx V} {port : PortId} {buf : List V}
    (package : V) (h : alookup ctx.send port = some buf) :
    ctx.sendPort port package =
      some { ctx with send := aupdate ctx.send port (package :: buf) } := by
  unfold InnerCtx.sendPort
  simp only [h]

/-- Iterating `send` over `pkgs` in call order leaves the buffer holding
`pkgs.reverse ++ buf`: each call prepends, so the last package sent sits at
the front. -/
theorem sendMany_eq {V : Type} (pkgs : List V) :
    ∀ (ctx : InnerCtx V) (port : PortId) (buf : List V),
    alookup ctx.send port = some buf →
    ctx.sendMany port pkgs =
      some { ctx with send := aupdate ctx.send port (pkgs.reverse ++ buf) } := by
  induction pkgs with
  | nil =>
    intro ctx port buf h
    simp only [InnerCtx.sendMany, List.reverse_nil, List.nil_append, aupdate_self_value h]
  | cons p rest ih =>
    intro ctx port buf h
    unfold InnerCtx.sendMany
    rw [sendPort_eq p h]
    show ({ ctx with send := aupdate ctx.send port (p :: buf) } : InnerCtx V).sendMany
        port rest = _
    rw [ih _ port (p :: buf) (by rw [alookup_aupdate_self, h]; rfl)]
    simp only [aupdate_aupdate, List.reverse_cons, List.append_assoc,
      List.singleton_append]

theorem sum_map_const {A : Type} (l : List A) (c : Nat) :
    (l.map fun _ => c).sum = l.length * c := by
  induction l with
  | nil => simp
  | cons hd tl ih =>
    simp [ih, Nat.succ_mul]
    omega

/-- The core fan-out property of `Ctxs::refresh_queues` for the state after a
single firing: one context holds one pending buffer `B` on output port `o`
and every other buffer in the pool is empty.  When the endpoint has recorded
targets `ts`, each open downstream queue receives `B` appended, and the total
number of parked packages grows by `B.length * ts.length`; with no recorded
targets the buffer is dropped and no receive queue changes. -/
theorem refresh_queues_single_sender {V : Type} (cs : Ctxs V) (a : Id) (o : PortId)
    (B : List V) (ctxA : InnerCtx V)
    (hkeys : (cs.contexts.map Prod.fst).Nodup)
    (hmemA : (a, ctxA) ∈ cs.contexts)
    (hoB : (o, B) ∈ ctxA.send)
    (hsendA : ∀ pb ∈ ctxA.send, (pb.1 = o ∧ pb.2 = B) ∨ (pb.1 ≠ o ∧ pb.2 = []))
    (hndA : (ctxA.send.map Prod.fst).Nodup)
    (hB : B ≠ [])
    (hothers : ∀ e ∈ cs.contexts, e.1 ≠ a → ∀ pb ∈ e.2.send, pb.2 = ([] : List V)) :
    (∀ ts, cs.connections.fromTargets ⟨a, o⟩ = some ts → ts.Nodup →
      (∀ t ∈ ts, ∃ q0, queueAt cs.contexts t = some (.Open q0)) →
      (∀ t ∈ ts, ∀ q0, queueAt cs.contexts t = some (.Open q0) →
        queueAt cs.refresh_queues.contexts t = some (.Open (q0 ++ B))) ∧
      totalReceiveLen cs.refresh_queues.contexts =
        totalReceiveLen cs.contexts + B.length * ts.length) ∧
    ((cs.connections.fromTargets ⟨a, o⟩ = none ∨
      cs.connections.fromTargets ⟨a, o⟩ = some []) →
      ∀ p, queueAt cs.refresh_queues.contexts p = queueAt cs.contexts p) := by
  rcases List.append_of_mem hmemA with ⟨pre, post, hsplit⟩
  have hprekeys : a ∉ pre.map Prod.fst ∧ a ∉ post.map Prod.fst := by
    rw [hsplit] at hkeys
    simp only [List.map_append, List.map_cons] at hkeys
    have h1 := (List.nodup_append.mp hkeys).2.2
    have h2 := (List.nodup_cons.mp (List.nodup_append.mp hkeys).2.1).1
    constructor
    · intro hmem
      exact h1 hmem (by simp)
    · exact h2
  have hpre : ∀ e ∈ pre, ∀ pb ∈ e.2.send, pb.2 = ([] : List V) := by
    intro e he pb hpb
    refine hothers e (hsplit ▸ (by simp [he])) (fun hea => ?_) pb hpb
    exact hprekeys.1 (hea ▸ List.mem_map_of_mem _ he)
  have hpost : ∀ e ∈ post, ∀ pb ∈ e.2.send, pb.2 = ([] : List V) := by
    intro e he pb hpb
    refine hothers e (hsplit ▸ (by simp [he])) (fun hea => ?_) pb hpb
    exact hprekeys.2 (hea ▸ List.mem_map_of_mem _ he)
  have hpr : (routePhase cs.connections cs.contexts ([] : Received V)).2 =
      match cs.connections.fromTargets ⟨a, o⟩ with
      | none => ([] : Received V)
      | some to_ports => routeTargets to_ports B [] := by
    rw [hsplit]
    exact routePhase_single_sender cs.connections [] hpre hpost hoB hsendA hndA hB
  have hmap := routePhase_receive_map cs.connections cs.contexts ([] : Received V)
  have hqpres := queueAt_of_receive_map_eq hmap
  have htpres := totalLen_of_receive_map_eq hmap
  have hrq : cs.refresh_queues.contexts =
      deliverPhase (routePhase cs.connections cs.contexts []).2
        (routePhase cs.connections cs.contexts []).1 := rfl
  constructor
  · intro ts hts hnd hopen
    rw [hts] at hpr
    cases ts with
    | nil =>
      have hpr2 : (routePhase cs.connections cs.contexts ([] : Received V)).2 =
          ([] : Received V) := hpr
      constructor
      · intro t ht
        simp at ht
      · rw [hrq, hpr2]
        simp only [deliverPhase, List.length_nil, Nat.mul_zero, Nat.add_zero]
        exact htpres
    | cons t0 rest =>
      have hpr2 : (routePhase cs.connections cs.contexts ([] : Received V)).2 =
          routeTargets (t0 :: rest) B [] := hpr
      rw [routeTargets_from_empty B t0 rest hnd] at hpr2
      have hprlist : (routePhase cs.connections cs.contexts ([] : Received V)).2 =
          (rest ++ [t0]).map fun t => (t, B) := by
        rw [hpr2, List.map_append]
        rfl
      have hptsnd : (rest ++ [t0]).Nodup := by
        rcases List.nodup_cons.mp hnd with ⟨h1, h2⟩
        refine List.Nodup.append h2 (by simp) ?_
        intro x hx hx2
        simp at hx2
        exact h1 (hx2 ▸ hx)
      have hpw : ((rest ++ [t0]).map fun t => (t, B)).Pairwise
          fun e1 e2 => e1.1 ≠ e2.1 := by
        rw [List.pairwise_map]
        exact hptsnd
      have hmemts : ∀ t : Point, t ∈ rest ++ [t0] ↔ t ∈ t0 :: rest := by
        intro t
        simp [List.mem_append, List.mem_cons, or_comm]
      have hopen1 : ∀ e ∈ ((rest ++ [t0]).map fun t => (t, B)), ∃ q,
          queueAt (routePhase cs.connections cs.contexts ([] : Received V)).1 e.1 =
            some (.Open q) := by
        intro e he
        rcases List.mem_map.mp he with ⟨t, ht, rfl⟩
        rcases hopen t ((hmemts t).mp ht) with ⟨q0, hq0⟩
        exact ⟨q0, by rw [hqpres]; exact hq0⟩
      constructor
      · intro t ht q0 hq0
        rw [hrq, hprlist]
        exact deliverPhase_queueAt_of_mem hpw
          (List.mem_map_of_mem _ ((hmemts t).mpr ht))
          (by rw [hqpres]; exact hq0)
      · rw [hrq, hprlist]
        rw [deliverPhase_totalLen hpw hopen1]
        rw [htpres, List.map_map]
        have hsum : ((rest ++ [t0]).map ((fun e => e.2.length) ∘ fun t => (t, B))).sum =
            (rest ++ [t0]).length * B.length := by
          rw [← sum_map_const (rest ++ [t0]) B.length]
          rfl
        rw [hsum]
        simp only [List.length_append, List.length_cons, List.length_nil]
        ring_nf
  · intro hnone p
    have hpr0 : (routePhase cs.connections cs.contexts ([] : Received V)).2 = [] := by
      rcases hnone with h | h
      · rw [h] at hpr
        exact hpr
      · rw [h] at hpr
        exact hpr
    rw [hrq, hpr0]
    simp only [deliverPhase]
    exact hqpres p

/-- The graph reached by adding the edges 1→2, 2→3 and then 3→1: all three
adds succeed, so the parent map closes a directed cycle. -/
def cyclicGraph : Connections :=
  ⟨[(2, [1]), (3, [2]), (1, [3])],
   [(⟨1, 0⟩, [⟨2, 0⟩]), (⟨2, 0⟩, [⟨3, 0⟩]), (⟨3, 0⟩, [⟨1, 0⟩])]⟩

/-- The graph holding the single edge 1→2. -/
def edgeGraph12 : Connections := ⟨[(2, [1])], [(⟨1, 0⟩, [⟨2, 0⟩])]⟩

/-- A context with one input port 0 holding one package, used to probe the
receive operations. -/
def probeCtx : InnerCtx Nat := ⟨4, .Lazy, [], [(0, .Open [3])], false, 1⟩

/-- `probeCtx` after its queue was popped with `consumed` set. -/
def probeCtxConsumed : InnerCtx Nat := ⟨4, .Lazy, [], [(0, .Open [])], true, 1⟩

/-- `probeCtx` after `receive_many` popped its queue: `consumed` is still
false. -/
def probeCtxMany : InnerCtx Nat := ⟨4, .Lazy, [], [(0, .Open [])], false, 1⟩

/-- A body that emits nothing and continues; used by concrete flows. -/
def noopBody : InnerCtx Nat → Except Error (InnerCtx Nat × Next) :=
  fun ctx => .ok (ctx, .Continue)

/-- A source component with a single output port 0. -/
def sourceComp : Component Nat := ⟨1, .Lazy, [], [Port.new 0], noopBody⟩

/-- A sink component with a single input port 0. -/
def sinkComp : Component Nat := ⟨2, .Lazy, [Port.new 0], [], noopBody⟩

/-- A two-component flow: component 1 with output port 0, component 2 with
input port 0, no connections yet. -/
def twoCompFlow : Flow Nat :=
  ⟨[(1, sourceComp), (2, sinkComp)], Connections.new⟩

/-! ### Claim theorems -/

/-- C1: the claim states that every built flow has an acyclic connection
graph and that, after adding 1→2 and 2→3, adding 3→1 fails with
`LoopCreated` and leaves the graph unchanged.  The code instead checks
`ancestral_of(from, to)` — whether the source is already an ancestor of the
destination — so the back edge 3→1 passes the check: all three adds succeed
and the resulting parent map contains the directed cycle 1→2→3→1. -/
theorem addConnection_accepts_back_edge :
    Connections.addSeq Connections.new 10 [⟨1, 0, 2, 0⟩, ⟨2, 0, 3, 0⟩, ⟨3, 0, 1, 0⟩] =
        .ok cyclicGraph ∧
      (cyclicGraph.parentsOf 2).contains 1 = true ∧
      (cyclicGraph.parentsOf 3).contains 2 = true ∧
      (cyclicGraph.parentsOf 1).contains 3 = true :=
  ⟨rfl, rfl, rfl, rfl⟩

/-- C6: the claim states that re-adding an existing connection fails with
`ConnectionAlreadyExist`.  After the first add of 1→2, component 1 is
recorded as a parent of component 2, so the loop check
`ancestral_of(from, to)` already answers true and the second add fails with
`LoopCreated` instead; the `ConnectionAlreadyExist` branch is unreachable. -/
theorem duplicate_connection_reports_loop :
    Connections.new.add 10 ⟨1, 0, 2, 0⟩ = .ok edgeGraph12 ∧
      edgeGraph12.add 10 ⟨1, 0, 2, 0⟩ = .error (.LoopCreated ⟨1, 0, 2, 0⟩) :=
  ⟨rfl, rfl⟩

/-- C8: the claim (and the `# Panics` documentation of `receive_many`)
states that an unknown port id is fatal and the call never returns `None`.
In the code `HashMap::get_disjoint_mut` yields a `None` queue slot for the
unknown port, the emptiness check treats it like an empty queue, and the
call returns `None` normally; only a repeated port panics. -/
theorem receive_many_unknown_port_returns_none :
    probeCtx.receive_many [1] = some (none, probeCtx) ∧
      probeCtx.receive_many [0, 0] = none :=
  ⟨rfl, rfl⟩

/-- C9: the claim (and the `# Panics` documentation of `Ports::new`) states
that both duplicate ids and duplicate labels are rejected fatally.  The
constructor's scan compares only the `port` ids, so two ports sharing the
label "a" under distinct ids are accepted, while a duplicate id does
panic. -/
theorem ports_new_ignores_duplicate_labels :
    Ports.new [⟨0, some "a", none⟩, ⟨1, some "a", none⟩] =
        some ⟨[⟨0, some "a", none⟩, ⟨1, some "a", none⟩]⟩ ∧
      Ports.new [⟨0, none, none⟩, ⟨0, none, none⟩] = none :=
  ⟨rfl, rfl⟩

theorem alookup_mem {K V : Type} [DecidableEq K] {l : List (K × V)} {k : K} {v : V}
    (h : alookup l k = some v) : (k, v) ∈ l := by
  induction l with
  | nil => simp [alookup] at h
  | cons hd tl ih =>
    cases hd with
    | mk k1 v1 =>
      by_cases hk : k1 = k
      · simp [alookup, hk] at h
        simp [hk, h]
      · simp [alookup, hk] at h
        exact List.mem_cons_of_mem _ (ih h)

theorem alookup_of_mem_nodup {K V : Type} [DecidableEq K] {l : List (K × V)} {k : K} {v : V}
    (hnd : (l.map Prod.fst).Nodup) (h : (k, v) ∈ l) : alookup l k = some v := by
  induction l with
  | nil => simp at h
  | cons hd tl ih =>
    cases hd with
    | mk k1 v1 =>
      rcases List.mem_cons.mp h with he | hm
      · injection he with he1 he2
        simp [alookup, he1, he2]
      · by_cases hk : k1 = k
        · exfalso
          have hkm : k ∈ tl.map Prod.fst := by
            have := List.mem_map_of_mem Prod.fst hm
            simpa using this
          exact (List.nodup_cons.mp hnd).1 (hk ▸ hkm)
        · simp only [alookup, if_neg hk]
          exact ih (List.nodup_cons.mp hnd).2 hm

/-- The recursion of `any_ancestral_of` coincides with testing
`ancestorWithin` for each member of the candidate list. -/
theorem any_ancestral_of_eq_any (g : Connections) (fuel : Nat) :
    ∀ (ancestrals : List Id) (id : Id),
    g.any_ancestral_of fuel ancestrals id =
      ancestrals.any fun a => g.ancestorWithin fuel a id := by
  induction fuel with
  | zero =>
    intro ancestrals id
    simp [Connections.any_ancestral_of, Connections.ancestorWithin]
  | succ fuel ih =>
    intro ancestrals id
    rw [Bool.eq_iff_iff]
    simp only [Connections.any_ancestral_of, Connections.ancestorWithin,
      List.any_eq_true, Bool.or_eq_true, decide_eq_true_eq, List.elem_iff]
    constructor
    · rintro ⟨p, hp, hcase⟩
      rcases hcase with hmem | hany
      · exact ⟨p, hmem, p, hp, Or.inl rfl⟩
      · rw [ih] at hany
        rcases List.any_eq_true.mp hany with ⟨a, ha, hw⟩
        exact ⟨a, ha, p, hp, Or.inr hw⟩
    · rintro ⟨a, ha, p, hp, hcase⟩
      refine ⟨p, hp, ?_⟩
      rcases hcase with rfl | hw
      · exact Or.inl ha
      · right
        rw [ih]
        exact List.any_eq_true.mpr ⟨a, ha, hw⟩

/-- A node without recorded parents has no ancestors at all. -/
theorem ancestorWithin_no_parents (g : Connections) (n : Nat) (a x : Id)
    (h : g.parentsOf x = []) : g.ancestorWithin n a x = false := by
  cases n with
  | zero => rfl
  | succ m => simp [Connections.ancestorWithin, h]

/-- Membership in the base-candidate list, read off the context bound to the
id: at least one input port, every input queue non-empty. -/
theorem mem_base_candidates {V : Type} {cs : Ctxs V} {id : Id} {ctx : InnerCtx V}
    (hkeys : (cs.contexts.map Prod.fst).Nodup)
    (hctx : alookup cs.contexts id = some ctx) :
    id ∈ cs.base_candidates ↔
      (ctx.receive.length ≠ 0 ∧ ∀ pq ∈ ctx.receive, pq.2.len > 0) := by
  unfold Ctxs.base_candidates
  rw [List.mem_filterMap]
  constructor
  · rintro ⟨ic, hmem, hf⟩
    by_cases h1 : ic.2.receive.length = 0
    · simp [h1] at hf
    · by_cases h2 : (ic.2.receive.all fun pq => pq.2.len > 0) = true
      · simp only [if_neg h1, if_pos h2] at hf
        injection hf with hf
        subst hf
        have heq : alookup cs.contexts ic.1 = some ic.2 :=
          alookup_of_mem_nodup hkeys (by exact hmem)
        rw [hctx] at heq
        injection heq with heq
        rw [heq]
        refine ⟨h1, fun pq hpq => ?_⟩
        have hall := List.all_eq_true.mp h2 pq hpq
        simpa using hall
      · rw [if_neg h1, if_neg h2] at hf
        simp at hf
  · rintro ⟨h1, h2⟩
    refine ⟨(id, ctx), alookup_mem hctx, ?_⟩
    simp only [if_neg h1]
    rw [if_pos (List.all_eq_true.mpr fun pq hpq => by simpa using h2 pq hpq)]

/-- C4: among the base candidates of a cycle after the first — contexts with
at least one input port whose queues are all non-empty — an Eager candidate
is left out of the ready set exactly when some other candidate is a strict
ancestor of it, and a Lazy candidate is always kept.  `fuel` must suffice
for the ancestor recursion to see every relevant chain (`hfuel`), and the id
must not sit on a parent cycle (`hacyc`), which holds on every acyclic
graph. -/
theorem eager_withheld_iff_ready_ancestor {V : Type} (cs : Ctxs V)
    (connections : Connections) (fuel : Nat) (id : Id) (ctx : InnerCtx V)
    (hctx : alookup cs.contexts id = some ctx)
    (hcand : id ∈ cs.base_candidates)
    (hfuel : ∀ c ∈ cs.base_candidates, connections.IsAncestor c id →
      connections.ancestorWithin fuel c id = true)
    (hacyc : ¬ connections.IsAncestor id id) :
    id ∈ cs.ready_components connections fuel ↔
      (ctx.ty = .Eager →
        ¬ ∃ c ∈ cs.base_candidates, c ≠ id ∧ connections.IsAncestor c id) := by
  have hany : connections.any_ancestral_of fuel cs.base_candidates id = true ↔
      ∃ c ∈ cs.base_candidates, c ≠ id ∧ connections.IsAncestor c id := by
    rw [any_ancestral_of_eq_any]
    constructor
    · intro h
      rcases List.any_eq_true.mp h with ⟨c, hc, hw⟩
      refine ⟨c, hc, fun he => hacyc ?_, ⟨fuel, hw⟩⟩
      exact he ▸ (⟨fuel, hw⟩ : connections.IsAncestor c id)
    · rintro ⟨c, hc, _, hanc⟩
      exact List.any_eq_true.mpr ⟨c, hc, hfuel c hc hanc⟩
  have hcontains : ∀ g2 : Id → Bool,
      ((cs.base_candidates.filter g2).contains id = true) ↔ g2 id = true := by
    intro g2
    constructor
    · intro h
      have hm : id ∈ cs.base_candidates.filter g2 := by simpa using h
      exact (List.mem_filter.mp hm).2
    · intro h
      have hm : id ∈ cs.base_candidates.filter g2 := List.mem_filter.mpr ⟨hcand, h⟩
      simpa using hm
  simp only [Ctxs.ready_components]
  rw [List.mem_filter]
  simp only [hcand, true_and, decide_eq_true_eq]
  rw [hcontains]
  cases hty : ctx.ty with
  | Lazy =>
    constructor
    · intro _ hEager
      simp at hEager
    · intro _
      rw [hctx]
      simp [hty]
  | Eager =>
    rw [hctx]
    simp only [hty]
    rw [hany]
    simp

/-- Walking the firing results with the first-cycle exemption off, the first
context whose `consumed` flag is still false aborts the walk with
`AnyPackageConsumed` carrying its id. -/
theorem giveBackChecked_error {V : Type} {results : List (InnerCtx V × Next)}
    (hsome : ∃ r ∈ results, r.1.consumed = false) :
    ∃ r ∈ results, r.1.consumed = false ∧
      ∀ cs : Ctxs V, giveBackChecked cs false results =
        .error (.AnyPackageConsumed r.1.id) := by
  induction results with
  | nil =>
    rcases hsome with ⟨r, hr, _⟩
    simp at hr
  | cons hd tl ih =>
    cases hd with
    | mk ctx nx =>
      by_cases hc : ctx.consumed = false
      · refine ⟨(ctx, nx), by simp, hc, fun cs => ?_⟩
        unfold giveBackChecked
        rw [if_pos ⟨by simp [hc], by simp⟩]
      · have hsome2 : ∃ r ∈ tl, r.1.consumed = false := by
          rcases hsome with ⟨r, hr, hrc⟩
          rcases List.mem_cons.mp hr with rfl | hm
          · exact absurd hrc hc
          · exact ⟨r, hm, hrc⟩
        rcases ih hsome2 with ⟨r, hm, hrc, heq⟩
        refine ⟨r, List.mem_cons_of_mem _ hm, hrc, fun cs => ?_⟩
        unfold giveBackChecked
        rw [if_neg (by simp [hc])]
        exact heq (cs.give_back ctx)

/-- With the first-cycle exemption on, the walk never aborts: every context
is given back. -/
theorem giveBackChecked_first {V : Type} (results : List (InnerCtx V × Next)) :
    ∀ cs : Ctxs V, ∃ cs2, giveBackChecked cs true results = .ok cs2 := by
  induction results with
  | nil => intro cs; exact ⟨cs, rfl⟩
  | cons hd tl ih =>
    intro cs
    cases hd with
    | mk ctx nx =>
      unfold giveBackChecked
      rw [if_neg (by simp)]
      exact ih (cs.give_back ctx)

/-- One cycle whose firings all succeeded and all chose `Continue` reduces
to the consumed check followed by routing and the next ready set. -/
theorem runCycle_eq {V : Type} {components : List (Id × Component V)}
    (connections : Connections) {cs cs1 : Ctxs V} {ready : List Id} {cicle : Nat}
    (first : Bool) (ancFuel : Nat) {results : List (InnerCtx V × Next)}
    (hfire : fireReady components cs cicle ready = some (.ok results, cs1))
    (hcont : ∀ r ∈ results, r.2 = Next.Continue) :
    runCycle components connections cs ready first cicle ancFuel =
      match giveBackChecked cs1 first results with
      | .error e => some (.fail e)
      | .ok cs2 => some (.proceed cs2.refresh_queues
          (cs2.refresh_queues.ready_components connections ancFuel)) := by
  unfold runCycle
  rw [hfire]
  have hnobreak : ¬ ((results.any fun rn => rn.2 = Next.Break) = true) := by
    intro h
    rcases List.any_eq_true.mp h with ⟨r, hr, hp⟩
    have hb : r.2 = Next.Break := by simpa using hp
    rw [hcont r hr] at hb
    exact absurd hb (by simp)
  show (if results.any (fun rn => rn.2 = Next.Break) then some CycleResult.halt
      else
        match giveBackChecked cs1 first results with
        | .error e => some (.fail e)
        | .ok cs2 => some (.proceed (Ctxs.refresh_queues cs2)
            ((Ctxs.refresh_queues cs2).ready_components connections ancFuel))) = _
  rw [if_neg hnobreak]

/-- C5: when every firing of a non-first cycle returns `Continue` and some
fired context ends with its `consumed` flag still false, the run loop aborts
with `AnyPackageConsumed` naming one such component; and with the
first-cycle exemption on, the same cycle never aborts on the consumed check
but proceeds. -/
theorem no_package_consumed_aborts {V : Type} (components : List (Id × Component V))
    (connections : Connections) (cs cs1 : Ctxs V) (ready : List Id)
    (cicle ancFuel fuel : Nat) (results : List (InnerCtx V × Next))
    (hready : ready ≠ [])
    (hfire : fireReady components cs cicle ready = some (.ok results, cs1))
    (hcont : ∀ r ∈ results, r.2 = Next.Continue)
    (hsome : ∃ r ∈ results, r.1.consumed = false) :
    (∃ c, runLoop components connections cs ready false cicle ancFuel (fuel + 1) =
        some (.error (.AnyPackageConsumed c)) ∧
      ∃ r ∈ results, r.1.consumed = false ∧ r.1.id = c) ∧
    ∃ cs2 : Ctxs V, runCycle components connections cs ready true cicle ancFuel =
      some (.proceed cs2.refresh_queues
        (cs2.refresh_queues.ready_components connections ancFuel)) := by
  constructor
  · rcases giveBackChecked_error hsome with ⟨r, hm, hrc, heq⟩
    refine ⟨r.1.id, ?_, r, hm, hrc, rfl⟩
    have hcyc : runCycle components connections cs ready false cicle ancFuel =
        some (.fail (.AnyPackageConsumed r.1.id)) := by
      rw [runCycle_eq connections false ancFuel hfire hcont, heq cs1]
    cases ready with
    | nil => exact absurd rfl hready
    | cons rh rt =>
      unfold runLoop
      rw [List.isEmpty_cons, if_neg (by simp), hcyc]
  · rcases giveBackChecked_first results cs1 with ⟨cs2, heq⟩
    refine ⟨cs2, ?_⟩
    rw [runCycle_eq connections true ancFuel hfire hcont, heq]

/-- The component of the consumed-check witness: one input port, a body that
neither reads nor closes anything and continues. -/
def c5comp : Component Nat := ⟨7, .Lazy, [Port.new 0], [], fun ctx => .ok (ctx, .Continue)⟩

/-- The witness component map. -/
def c5comps : List (Id × Component Nat) := [(7, c5comp)]

/-- The witness context before the cycle: one package waiting on input 0. -/
def c5ctx : InnerCtx Nat := ⟨7, .Lazy, [], [(0, .Open [3])], false, 0⟩

/-- The witness pool holding that single context. -/
def c5cs : Ctxs Nat := ⟨Connections.new, [(7, c5ctx)]⟩

/-- The witness context as the firing returns it in cycle 2: stamped with
the cycle and with `consumed` still false. -/
def c5ctxAfter : InnerCtx Nat := ⟨7, .Lazy, [], [(0, .Open [3])], false, 2⟩

/-- C5 witness: in cycle 2 the component fires, consumes nothing and
returns `Continue`; the run aborts with `AnyPackageConsumed` naming it. -/
theorem no_package_consumed_aborts_witness :
    ∃ c, runLoop c5comps Connections.new c5cs [7] false 2 3 1 =
        some (.error (.AnyPackageConsumed c)) ∧
      ∃ r ∈ [(c5ctxAfter, Next.Continue)], r.1.consumed = false ∧ r.1.id = c :=
  (no_package_consumed_aborts c5comps Connections.new c5cs ⟨Connections.new, []⟩ [7]
    2 3 0 [(c5ctxAfter, .Continue)] (by decide) rfl (by decide)
    ⟨(c5ctxAfter, .Continue), by decide, rfl⟩).1

/-- The witness graph for the eager rule: component 1 is the sole parent of
component 2. -/
def c4graph : Connections := ⟨[(2, [1])], []⟩

/-- A Lazy candidate with one package waiting on its input. -/
def c4lazy1 : InnerCtx Nat := ⟨1, .Lazy, [], [(0, .Open [5])], false, 0⟩

/-- An Eager candidate with one package waiting on its input. -/
def c4eager2 : InnerCtx Nat := ⟨2, .Eager, [], [(0, .Open [7])], false, 0⟩

/-- The eager-rule witness pool holding both candidates. -/
def c4cs : Ctxs Nat := ⟨c4graph, [(1, c4lazy1), (2, c4eager2)]⟩

/-- In the witness graph, component 2 is not its own ancestor: its only
parent chain runs through component 1, which has no parents. -/
theorem c4graph_no_self_ancestor : ¬ Connections.IsAncestor c4graph 2 2 := by
  rintro ⟨n, hn⟩
  cases n with
  | zero => exact absurd hn (by simp [Connections.ancestorWithin])
  | succ m =>
    have h1 : c4graph.parentsOf 1 = [] := rfl
    have hp : c4graph.parentsOf 2 = [1] := rfl
    have hred : c4graph.ancestorWithin (m + 1) 2 2 =
        ((c4graph.parentsOf 2).any fun parent =>
          parent = 2 || c4graph.ancestorWithin m 2 parent) := rfl
    rw [hred, hp] at hn
    simp [ancestorWithin_no_parents c4graph m 2 1 h1] at hn

/-- Enough fuel for every ancestor chain of the witness graph. -/
theorem c4graph_fuel : ∀ c ∈ c4cs.base_candidates,
    Connections.IsAncestor c4graph c 2 → c4graph.ancestorWithin 2 c 2 = true := by
  intro c hc hanc
  have hbase : c4cs.base_candidates = [1, 2] := rfl
  rw [hbase] at hc
  rcases List.mem_cons.mp hc with rfl | hc2
  · decide
  · rcases List.mem_cons.mp hc2 with rfl | hc3
    · exact absurd hanc c4graph_no_self_ancestor
    · simp at hc3

/-- C4 witness: in the witness pool both components are candidates; the
Eager component 2 is withheld because the candidate 1 is its ancestor, while
the Lazy component 1 fires. -/
theorem eager_withheld_iff_ready_ancestor_witness :
    2 ∉ c4cs.ready_components c4graph 2 ∧ 1 ∈ c4cs.ready_components c4graph 2 :=
  ⟨fun hmem =>
    ((eager_withheld_iff_ready_ancestor c4cs c4graph 2 2 c4eager2 rfl (by decide)
        c4graph_fuel c4graph_no_self_ancestor).mp hmem rfl)
      ⟨1, by decide, by decide, ⟨1, by decide⟩⟩,
   by decide⟩

/-- The sender context of the fan-out witness: one output port 0 holding the
buffer [10, 20]. -/
def c2sender : InnerCtx Nat := ⟨1, .Lazy, [(0, [10, 20])], [], false, 0⟩

/-- A receiver context of the fan-out witness with an open empty input 0. -/
def c2recv2 : InnerCtx Nat := ⟨2, .Lazy, [], [(0, .Open [])], false, 0⟩

/-- The second receiver context of the fan-out witness. -/
def c2recv3 : InnerCtx Nat := ⟨3, .Lazy, [], [(0, .Open [])], false, 0⟩

/-- The fan-out witness pool: component 1 fans out to inputs 2.0 and 3.0. -/
def c2cs : Ctxs Nat :=
  ⟨⟨[], [(⟨1, 0⟩, [⟨2, 0⟩, ⟨3, 0⟩])]⟩, [(1, c2sender), (2, c2recv2), (3, c2recv3)]⟩

/-- C2: after a firing that left the buffer `B` (n = `B.length` packages)
pending on output port `o` of component `a` — every other buffer in the pool
being empty — `refresh_queues` appends `B` to every open downstream input
queue of the `s = ts.length` recorded targets, enqueueing exactly
`n * s` packages in total; with no recorded targets (`none` or an empty
target list) the packages are dropped and every receive queue is
unchanged. -/
theorem refresh_routes_n_times_s {V : Type} (cs : Ctxs V) (a : Id) (o : PortId)
    (B : List V) (ctxA : InnerCtx V)
    (hkeys : (cs.contexts.map Prod.fst).Nodup)
    (hmemA : (a, ctxA) ∈ cs.contexts)
    (hoB : (o, B) ∈ ctxA.send)
    (hsendA : ∀ pb ∈ ctxA.send, (pb.1 = o ∧ pb.2 = B) ∨ (pb.1 ≠ o ∧ pb.2 = []))
    (hndA : (ctxA.send.map Prod.fst).Nodup)
    (hB : B ≠ [])
    (hothers : ∀ e ∈ cs.contexts, e.1 ≠ a → ∀ pb ∈ e.2.send, pb.2 = ([] : List V)) :
    (∀ ts, cs.connections.fromTargets ⟨a, o⟩ = some ts → ts.Nodup →
      (∀ t ∈ ts, ∃ q0, queueAt cs.contexts t = some (.Open q0)) →
      (∀ t ∈ ts, ∀ q0, queueAt cs.contexts t = some (.Open q0) →
        queueAt cs.refresh_queues.contexts t = some (.Open (q0 ++ B))) ∧
      totalReceiveLen cs.refresh_queues.contexts =
        totalReceiveLen cs.contexts + B.length * ts.length) ∧
    ((cs.connections.fromTargets ⟨a, o⟩ = none ∨
      cs.connections.fromTargets ⟨a, o⟩ = some []) →
      ∀ p, queueAt cs.refresh_queues.contexts p = queueAt cs.contexts p) :=
  refresh_queues_single_sender cs a o B ctxA hkeys hmemA hoB hsendA hndA hB hothers

/-- C2 witness: in the concrete two-target pool, both downstream queues end
up holding the buffer and the total package count grows by n×s = 2×2. -/
theorem refresh_routes_n_times_s_witness :
    queueAt c2cs.refresh_queues.contexts ⟨2, 0⟩ = some (.Open ([] ++ [10, 20])) ∧
    queueAt c2cs.refresh_queues.contexts ⟨3, 0⟩ = some (.Open ([] ++ [10, 20])) ∧
    totalReceiveLen c2cs.refresh_queues.contexts = totalReceiveLen c2cs.contexts + 2 * 2 := by
  have hopen : ∀ t ∈ [(⟨2, 0⟩ : Point), ⟨3, 0⟩], ∃ q0,
      queueAt c2cs.contexts t = some (.Open q0) := by
    intro t ht
    rcases List.mem_cons.mp ht with rfl | ht2
    · exact ⟨[], rfl⟩
    · rcases List.mem_cons.mp ht2 with rfl | ht3
      · exact ⟨[], rfl⟩
      · simp at ht3
  have h := (refresh_routes_n_times_s c2cs 1 0 [10, 20] c2sender (by decide) (by decide)
      (by decide) (by decide) (by decide) (by decide) (by decide)).1
      [⟨2, 0⟩, ⟨3, 0⟩] rfl (by decide) hopen
  exact ⟨h.1 ⟨2, 0⟩ (by decide) [] rfl, h.1 ⟨3, 0⟩ (by decide) [] rfl, h.2⟩

/-- The sender context of the ordering scenario before any send call. -/
def c3sender0 : InnerCtx Nat := ⟨1, .Lazy, [(0, [])], [], false, 0⟩

/-- The sender context after sending 1 then 2: `send` prepends, so the
buffer reads [2, 1]. -/
def c3sender : InnerCtx Nat := ⟨1, .Lazy, [(0, [2, 1])], [], false, 0⟩

/-- The receiver context of the ordering scenario. -/
def c3recv : InnerCtx Nat := ⟨2, .Lazy, [], [(0, .Open [])], false, 0⟩

/-- The ordering-scenario pool: output 1.0 feeds the single input 2.0. -/
def c3cs : Ctxs Nat :=
  ⟨⟨[], [(⟨1, 0⟩, [⟨2, 0⟩])]⟩, [(1, c3sender), (2, c3recv)]⟩

/-- C3 counterexample: a firing sends package 1 then package 2 on a port
with a single downstream queue, and after routing the downstream queue holds
[2, 1] — not the emission order [1, 2] that the claim asserts. -/
theorem send_order_counterexample :
    c3sender0.sendMany 0 [1, 2] = some c3sender ∧
    queueAt c3cs.refresh_queues.contexts ⟨2, 0⟩ = some (.Open [2, 1]) ∧
    ReceiveQueue.Open [2, 1] ≠ (ReceiveQueue.Open [1, 2] : ReceiveQueue Nat) :=
  ⟨rfl, rfl, by decide⟩

/-- C3 as amended: when a firing emits `pkgs` through successive `send`
calls on output port `o` connected to the single downstream endpoint `t`,
the downstream open queue receives the packages in reverse emission order
(`pkgs.reverse` appended to its prior content), because `send` pushes onto
the front of the buffer while routing moves the buffer as-is. -/
theorem send_order_reversed_downstream {V : Type} (cs : Ctxs V) (a : Id) (o : PortId)
    (pkgs : List V) (ctxA0 ctxA : InnerCtx V) (t : Point) (q0 : List V)
    (hkeys : (cs.contexts.map Prod.fst).Nodup)
    (hmemA : (a, ctxA) ∈ cs.contexts)
    (hsm : ctxA0.sendMany o pkgs = some ctxA)
    (ho : alookup ctxA0.send o = some [])
    (hsend0 : ∀ pb ∈ ctxA0.send, pb.2 = ([] : List V))
    (hnd0 : (ctxA0.send.map Prod.fst).Nodup)
    (hpkgs : pkgs ≠ [])
    (hothers : ∀ e ∈ cs.contexts, e.1 ≠ a → ∀ pb ∈ e.2.send, pb.2 = ([] : List V))
    (hconn : cs.connections.fromTargets ⟨a, o⟩ = some [t])
    (hq : queueAt cs.contexts t = some (.Open q0)) :
    queueAt cs.refresh_queues.contexts t = some (.Open (q0 ++ pkgs.reverse)) := by
  have hsm2 := sendMany_eq pkgs ctxA0 o [] ho
  rw [hsm] at hsm2
  have hA : ctxA = { ctxA0 with send := aupdate ctxA0.send o (pkgs.reverse ++ []) } := by
    injection hsm2
  have hsendEq : ctxA.send = aupdate ctxA0.send o pkgs.reverse := by
    rw [hA]
    simp
  have hBne : pkgs.reverse ≠ [] := by
    simpa using hpkgs
  have hoB : (o, pkgs.reverse) ∈ ctxA.send := by
    rw [hsendEq]
    exact mem_aupdate_self _ ho
  have hsendA : ∀ pb ∈ ctxA.send,
      (pb.1 = o ∧ pb.2 = pkgs.reverse) ∨ (pb.1 ≠ o ∧ pb.2 = []) := by
    rw [hsendEq]
    intro pb hpb
    rcases mem_aupdate_elim_nodup hnd0 ho hpb with he | ⟨hm, hne⟩
    · rw [he]
      exact Or.inl ⟨rfl, rfl⟩
    · exact Or.inr ⟨hne, hsend0 pb hm⟩
  have hndA : (ctxA.send.map Prod.fst).Nodup := by
    rw [hsendEq, map_fst_aupdate]
    exact hnd0
  have h := (refresh_queues_single_sender cs a o pkgs.reverse ctxA hkeys hmemA hoB hsendA
      hndA hBne hothers).1 [t] hconn (by simp) ?_
  · exact h.1 t (by simp) q0 hq
  · intro t1 ht1
    rcases List.mem_cons.mp ht1 with rfl | ht2
    · exact ⟨q0, hq⟩
    · simp at ht2

/-- C3 amended witness: in the concrete single-target pool, the downstream
queue ends up holding [2, 1] — the reverse of the emission order [1, 2]. -/
theorem send_order_reversed_downstream_witness :
    queueAt c3cs.refresh_queues.contexts ⟨2, 0⟩ = some (.Open [2, 1]) :=
  send_order_reversed_downstream c3cs 1 0 [1, 2] c3sender0 c3sender ⟨2, 0⟩ []
    (by decide) (by decide) rfl rfl (by decide) (by decide) (by decide) (by decide) rfl rfl

/-- C7 counterexample: `receive_many` pops a package from the listed queue
and returns it, yet leaves the context's `consumed` flag false, refuting the
claim that every `receiveMany` call sets `consumed`. -/
theorem receive_many_leaves_consumed_false :
    probeCtx.receive_many [0] = some (some [3], probeCtxMany) ∧
      probeCtxMany.consumed = false :=
  ⟨rfl, rfl⟩

/-- C7 as amended: `receive`, `receive_all` and `close` set `consumed` on
every call that returns — including calls that deliver no package — while
`receive_many` never changes `consumed`. -/
theorem consumed_flag_per_operation {V : Type} (ctx : InnerCtx V) :
    (∀ port r ctx1, ctx.receivePort port = some (r, ctx1) → ctx1.consumed = true) ∧
    (∀ port rs ctx1, ctx.receive_all port = some (rs, ctx1) → ctx1.consumed = true) ∧
    (∀ port ctx1, ctx.close port = some ctx1 → ctx1.consumed = true) ∧
    (∀ ports r ctx1, ctx.receive_many ports = some (r, ctx1) →
      ctx1.consumed = ctx.consumed) := by
  refine ⟨?_, ?_, ?_, ?_⟩
  · intro port r ctx1 h
    unfold InnerCtx.receivePort at h
    cases halook : alookup ctx.receive port with
    | none => simp [halook] at h
    | some q =>
      cases hq : q.get_next with
      | mk pkg q1 =>
        simp [halook, hq] at h
        rw [← h.2]
  · intro port rs ctx1 h
    unfold InnerCtx.receive_all at h
    cases halook : alookup ctx.receive port with
    | none => simp [halook] at h
    | some q =>
      cases hq : q.get_all with
      | mk pkgs q1 =>
        simp [halook, hq] at h
        rw [← h.2]
  · intro port ctx1 h
    unfold InnerCtx.close at h
    cases halook : alookup ctx.receive port with
    | none => simp [halook] at h
    | some q =>
      simp [halook] at h
      rw [← h]
  · intro ports r ctx1 h
    unfold InnerCtx.receive_many at h
    by_cases hnd : ports.Nodup
    · rw [if_pos hnd] at h
      by_cases hany : ((ports.map fun p => alookup ctx.receive p).any fun q =>
          match q with
          | none => true
          | some q => q.isEmptyQ) = true
      · rw [if_pos hany] at h
        injection h with h
        injection h with h1 h2
        rw [← h2]
      · rw [if_neg hany] at h
        cases hpop : popEach ctx.receive ports with
        | none => simp [hpop] at h
        | some p =>
          cases p with
          | mk vs receive1 =>
            simp [hpop] at h
            rw [← h.2]
    · rw [if_neg hnd] at h
      exact absurd h (by simp)

/-- C7 witness: at the concrete probe context, `receive` marks `consumed`
while `receive_many` leaves it at false. -/
theorem consumed_flag_per_operation_witness :
    probeCtxConsumed.consumed = true ∧ probeCtxMany.consumed = false :=
  ⟨(consumed_flag_per_operation probeCtx).1 0 (some 3) probeCtxConsumed rfl,
   ((consumed_flag_per_operation probeCtx).2.2.2 [0] (some [3]) probeCtxMany rfl).trans rfl⟩

/-- C10: when the destination component exists but lacks the referenced
input port, `Flow::add_connection` reports `InPortNotFound` carrying
`connection.from` — the source component's id — exactly as the code is
written. -/
theorem add_connection_inport_error_carries_source_id {V : Type} (f : Flow V) (fuel : Nat)
    (c : Connection) (compF compT : Component V)
    (hF : alookup f.components c.fromId = some compF)
    (hout : (compF.outputs.any fun p => p.port = c.out_port) = true)
    (hT : alookup f.components c.toId = some compT)
    (hin : (compT.inputs.any fun p => p.port = c.in_port) = false) :
    f.add_connection fuel c = .error (.InPortNotFound c.fromId c.in_port) := by
  unfold Flow.add_connection
  simp [hF, hT, hout, hin]

/-- C10 witness: in the two-component flow, connecting output 0 of component
1 to the missing input 5 of component 2 yields `InPortNotFound` blaming
component 1. -/
theorem add_connection_inport_error_witness :
    twoCompFlow.add_connection 9 ⟨1, 0, 2, 5⟩ = .error (.InPortNotFound 1 5) :=
  add_connection_inport_error_carries_source_id twoCompFlow 9 ⟨1, 0, 2, 5⟩
    sourceComp sinkComp rfl rfl rfl rfl

end RsFlow
